import Mathlib

/-!
Verification development for the HSE.UPDATE file-management core
(`utils.py`, `file_manager.py`, `smart_features.py`).

Python strings are modelled as lists of characters (`Str`), the filesystem
as a finite list of entries (`FileSys`), and each Python function of the
core is translated into an executable Lean definition that mirrors the
source line by line.  Stateful methods become explicit state-passing
functions; code that can raise returns `Except`/`Option` values.
-/

/-- A Python string: a finite sequence of code points. -/
abbrev Str := List Char

/-- Coerce a Lean string literal into the `Str` model. -/
def str (s : String) : Str := s.data

/-- Exceptions that the modelled code can raise. -/
inductive PyExc where
  | attributeError
  | osError
deriving DecidableEq

/-- One filesystem entry as observed by the `os` module during a scan:
its path, whether it is a directory (`os.path.isdir`), its byte size
(`os.path.getsize`), its modification timestamp (`os.path.getmtime`),
whether `os.access(_, os.R_OK)` grants read access, the byte content an
`open(..., 'rb')` would yield (`none` when opening/reading raises), and
the child names `os.scandir` would yield for a directory (`none` when
`os.scandir` raises). -/
structure FSEntry where
  path : Str
  is_dir : Bool
  size : Nat
  mtime : Nat
  readable : Bool
  content : Option (List Nat)
  children : Option (List Str)
deriving DecidableEq

/-- A snapshot of the filesystem: the finite set of existing entries. -/
structure FileSys where
  entries : List FSEntry
deriving DecidableEq

def FileSys.find (fs : FileSys) (p : Str) : Option FSEntry :=
  fs.entries.find? (fun e => decide (e.path = p))

/-- Model of `os.path.exists`. -/
def existsB (fs : FileSys) (p : Str) : Bool := (fs.find p).isSome

/-- Model of `os.path.isdir`. -/
def isDirB (fs : FileSys) (p : Str) : Bool :=
  ((fs.find p).map (fun e => e.is_dir)).getD false

/-- Model of `os.path.isfile` (an existing entry that is not a directory). -/
def isFileB (fs : FileSys) (p : Str) : Bool :=
  ((fs.find p).map (fun e => !e.is_dir)).getD false

/-- Model of `os.access(p, os.R_OK)`. -/
def readableB (fs : FileSys) (p : Str) : Bool :=
  ((fs.find p).map (fun e => e.readable)).getD false

/-- Model of `os.path.getsize` (defaulting to 0 off-domain; the sources
only call it on paths whose existence was just checked). -/
def sizeD (fs : FileSys) (p : Str) : Nat :=
  ((fs.find p).map (fun e => e.size)).getD 0

/-- Model of `os.path.getmtime` (same convention as `sizeD`). -/
def mtimeD (fs : FileSys) (p : Str) : Nat :=
  ((fs.find p).map (fun e => e.mtime)).getD 0

/-- Bytes produced by reading the file, `none` when reading raises. -/
def contentOf (fs : FileSys) (p : Str) : Option (List Nat) :=
  (fs.find p).bind (fun e => e.content)

/-- Names yielded by `os.scandir`, `none` when `os.scandir` raises. -/
def childrenOf (fs : FileSys) (p : Str) : Option (List Str) :=
  (fs.find p).bind (fun e => e.children)

/-- Model of `posixpath.isabs`: the path starts with the separator. -/
def isAbsL (p : Str) : Bool := decide (p.head? = some '/')

/-- Model of `os.path.join(a, b)` (posix rules): an absolute second
component wins; otherwise the components are joined with one separator. -/
def pJoin (a b : Str) : Str :=
  if isAbsL b then b
  else if a = [] ∨ a.getLast? = some '/' then a ++ b
  else a ++ '/' :: b

/-- The characters after the last separator: `os.path.basename`. -/
def afterLastSlash (p : Str) : Str :=
  p.foldl (fun acc c => if c = '/' then [] else acc ++ [c]) []

/-- Model of Python `str.lower` on one character (ASCII case mapping,
which is all the sources rely on). -/
def pyLowerChar (c : Char) : Char :=
  match c with
  | 'A' => 'a' | 'B' => 'b' | 'C' => 'c' | 'D' => 'd' | 'E' => 'e'
  | 'F' => 'f' | 'G' => 'g' | 'H' => 'h' | 'I' => 'i' | 'J' => 'j'
  | 'K' => 'k' | 'L' => 'l' | 'M' => 'm' | 'N' => 'n' | 'O' => 'o'
  | 'P' => 'p' | 'Q' => 'q' | 'R' => 'r' | 'S' => 's' | 'T' => 't'
  | 'U' => 'u' | 'V' => 'v' | 'W' => 'w' | 'X' => 'x' | 'Y' => 'y'
  | 'Z' => 'z'
  | other => other

/-- Model of Python `str.lower`. -/
def pyLowerL (s : Str) : Str := s.map pyLowerChar

/-!
## `utils.get_file_details`

`utils.py` line 2 imports the `datetime` MODULE (`import datetime`), yet
line 81 evaluates `datetime.fromtimestamp(modified_timestamp)`.  The
`datetime` module has no attribute `fromtimestamp` (the method lives on
the `datetime.datetime` class), so that expression raises
`AttributeError` on every call.  The surrounding `except Exception`
handler turns this into a `None` return.
-/

/-- The attribute access `datetime.fromtimestamp` performed by
`utils.get_file_details` line 81: always raises `AttributeError`
because `datetime` names the module, not the class. -/
def datetimeFromtimestamp (_ts : Nat) : Except PyExc Str :=
  .error .attributeError

/-- The descriptor dictionary built by `utils.get_file_details`.
The `formatted_size` and `icon` fields are omitted: no claim mentions
them and `formatted_size` renders IEEE floats, which this embedding
does not model.  `modified_time` is the formatted timestamp string. -/
structure FileDetails where
  name : Str
  path : Str
  is_dir : Bool
  size : Nat
  modified_time : Str
deriving DecidableEq

/-- The `try:` body of `utils.get_file_details` (pure intermediate
assignments are inlined; the only effectful step kept in `Except` is the
raising `datetime.fromtimestamp` call, which precedes the construction
of the returned dictionary). -/
def getFileDetailsBody (fs : FileSys) (p : Str) :
    Except PyExc (Option FileDetails) :=
  if ¬ existsB fs p then .ok none
  else
    match datetimeFromtimestamp (mtimeD fs p) with
    | .error e => .error e
    | .ok modified_time =>
        .ok (some
          { name := afterLastSlash p
            path := p
            is_dir := isDirB fs p
            size := if isDirB fs p then 0 else sizeD fs p
            modified_time := modified_time })

/-- Model of `utils.get_file_details`: run the body; any raised
exception is caught by the `except Exception` handler and turned into
`None`. -/
def get_file_details (fs : FileSys) (p : Str) : Option FileDetails :=
  match getFileDetailsBody fs p with
  | .ok r => r
  | .error _ => none

/-- As written, `get_file_details` returns `None` on every input: the
non-existing branch returns `None` directly, and every other run raises
`AttributeError` at `datetime.fromtimestamp` before building the result. -/
theorem get_file_details_eq_none (fs : FileSys) (p : Str) :
    get_file_details fs p = none := by
  unfold get_file_details getFileDetailsBody datetimeFromtimestamp
  by_cases h : existsB fs p <;> simp [h]

/-!
## `FileManager.get_file_hash`

The digest of the bytes is abstracted by a `hasher` parameter mapping an
algorithm name and the file bytes to a hex string, standing in for the
`hashlib` construction plus the chunked `update` loop (chunking does not
change the digested byte sequence).
-/

/-- Model of `FileManager.get_file_hash`.  Mirrors the source: a
non-file returns `None`; an unsupported algorithm raises `ValueError`,
which the function's own `except Exception` turns into `None`; an
unreadable file raises inside the `with open`, likewise caught. -/
def get_file_hash (fs : FileSys) (hasher : Str → List Nat → Str)
    (p : Str) (hash_algorithm : Str) : Option Str :=
  if ¬ isFileB fs p then none
  else if hash_algorithm = str "md5" ∨ hash_algorithm = str "sha1" ∨
          hash_algorithm = str "sha256" then
    match contentOf fs p with
    | none => none
    | some bytes => some (hasher hash_algorithm bytes)
  else none

/-!
## `FileManager.list_directory`

The `FileManager` object carries one piece of state, `current_path`.
Error messages are modelled by an error kind (their text plays no role
in any claim).  CPython's stable `list.sort` is modelled by a stable
insertion sort parameterised by the boolean `le` relation induced by the
source's sort key.
-/

/-- The mutable state of a `FileManager` instance. -/
structure FMState where
  current_path : Str
deriving DecidableEq

/-- Error kinds standing in for the error-message strings of
`FileManager.list_directory`. -/
inductive ListDirErr where
  | notExists
  | notADirectory
  | permissionDenied
  | scanFailed
deriving DecidableEq

/-- Insert an element into a sorted list, before the first element it
`le`-precedes (stable position for `le`-equivalent elements). -/
def stableInsert (le : α → α → Bool) (x : α) : List α → List α
  | [] => [x]
  | y :: ys => if le x y then x :: y :: ys else y :: stableInsert le x ys

/-- Stable insertion sort: extensionally the stable sort CPython's
`list.sort` performs for a total preorder `le`. -/
def sortByLe (le : α → α → Bool) (l : List α) : List α :=
  l.foldr (stableInsert le) []

/-- Python string comparison `a < b`: lexicographic by code point, a
strict prefix comparing less. -/
def strLt : Str → Str → Bool
  | _, [] => false
  | [], _ :: _ => true
  | a :: as, b :: bs =>
      if a < b then true else if b < a then false else strLt as bs

/-- The sort key of `list_directory` line 49:
`(not x['is_dir'], x['name'].lower())`, compared lexicographically with
code-point string order (Python tuple/str comparison). -/
def listDirKeyLe (x y : FileDetails) : Bool :=
  let kx : Nat := if x.is_dir then 0 else 1
  let ky : Nat := if y.is_dir then 0 else 1
  if kx < ky then true
  else if ky < kx then false
  else strLt (pyLowerL x.name) (pyLowerL y.name) ||
       decide (pyLowerL x.name = pyLowerL y.name)

/-- The resolved target of `list_directory` line 24:
`path if os.path.isabs(path) else os.path.join(self.current_path, path)`. -/
def targetOf (st : FMState) (p : Str) : Str :=
  if isAbsL p then p else pJoin st.current_path p

/-- Model of `FileManager.list_directory`.  Returns the new object state
together with the `(list_of_items, error_message)` pair of the source.
The `except` around the `os.access` check is unreachable in the model
(`os.access` is total here); the `except` branches around the
`os.scandir` enumeration are modelled by `childrenOf _ _ = none`. -/
def list_directory (fs : FileSys) (st : FMState) (p : Str) :
    FMState × (List FileDetails × Option ListDirErr) :=
  let target := targetOf st p
  if ¬ existsB fs target then (st, ([], some .notExists))
  else if ¬ isDirB fs target then (st, ([], some .notADirectory))
  else if ¬ readableB fs target then (st, ([], some .permissionDenied))
  else
    let st' : FMState := ⟨target⟩
    match childrenOf fs target with
    | none => (st', ([], some .scanFailed))
    | some names =>
        let items := names.filterMap
          (fun n => get_file_details fs (pJoin target n))
        (st', (sortByLe listDirKeyLe items, none))

/-!
## `SmartFeatures` access-history state

The history JSON document is modelled structurally: serialising a list
of strings and a string-to-integer mapping to JSON and parsing it back
is faithful, so the document is carried as the pair itself.  The
in-memory state of a `SmartFeatures` instance is `recent_files`, the
`frequent_items` counter (a `defaultdict(int)`, i.e. an
insertion-ordered association list), and the content of the history
file on disk.
-/

/-- The persisted history document:
`{'recent_files': ..., 'frequent_items': ...}`. -/
abbrev HistoryDoc := List Str × List (Str × Nat)

/-- The state of a `SmartFeatures` instance plus the history file it
owns (`none` = the file does not exist). -/
structure SmartState where
  recent_files : List Str
  frequent_items : List (Str × Nat)
  history_doc : Option HistoryDoc
deriving DecidableEq

/-- Remove the first occurrence of `p`: Python `list.remove` (total
here; the source guards the call with a membership test). -/
def removeFirst (l : List Str) (p : Str) : List Str :=
  match l with
  | [] => []
  | q :: rest => if q = p then rest else q :: removeFirst rest p

/-- `self.frequent_items[path] += 1` on a `defaultdict(int)`: increment
in place, creating the key at the end with initial count 0. -/
def bumpCount (fi : List (Str × Nat)) (p : Str) : List (Str × Nat) :=
  match fi with
  | [] => [(p, 1)]
  | (q, n) :: rest =>
      if q = p then (q, n + 1) :: rest else (q, n) :: bumpCount rest p

/-- Model of `SmartFeatures._save_history`: rewrite the history file
with the current in-memory structures (the `except` branch for a failed
write is not modelled; the claims quantify over successful writes). -/
def save_history (st : SmartState) : SmartState :=
  { st with history_doc := some (st.recent_files, st.frequent_items) }

/-- Model of `SmartFeatures._load_history`: starting from the
constructor defaults, read the document if the file exists and keep
only the paths that still exist on disk. -/
def load_history (fs : FileSys) (doc : Option HistoryDoc) :
    List Str × List (Str × Nat) :=
  match doc with
  | none => ([], [])
  | some (r, fi) =>
      (r.filter (fun p => existsB fs p),
       fi.filter (fun q => existsB fs q.1))

/-- Model of `SmartFeatures.track_access`. -/
def track_access (fs : FileSys) (st : SmartState) (p : Str) : SmartState :=
  if ¬ existsB fs p then st
  else
    let r0 := if p ∈ st.recent_files
              then removeFirst st.recent_files p
              else st.recent_files
    let r1 := (p :: r0).take 50
    save_history
      { st with recent_files := r1
                frequent_items := bumpCount st.frequent_items p }

/-- Model of `SmartFeatures.get_recent_items`: prune the stored list to
still-existing paths (a state mutation), then resolve descriptors,
keeping the non-`None` ones. -/
def get_recent_items (fs : FileSys) (st : SmartState) :
    SmartState × List FileDetails :=
  let r := st.recent_files.filter (fun p => existsB fs p)
  ({ st with recent_files := r },
   r.filterMap (fun p => get_file_details fs p))

/-- A sequence of `track_access` calls, each against the filesystem
snapshot current at that call. -/
def applyEvents (evs : List (FileSys × Str)) (st : SmartState) : SmartState :=
  evs.foldl (fun s e => track_access e.1 s e.2) st

/-- The `recentPaths` invariant of the access-history store: at most 50
entries and no duplicates. -/
def goodState (st : SmartState) : Prop :=
  st.recent_files.length ≤ 50 ∧ st.recent_files.Nodup

/-!
## `os.path.splitext` and the extension search of `FileManager.search_files`
-/

/-- Split a character list at its last dot: `some (stem, rest)` when a
dot occurs, where the input is `stem ++ dot :: rest`. -/
def lastDotSplit : Str → Option (Str × Str)
  | [] => none
  | c :: cs =>
      match lastDotSplit cs with
      | some (s, e) => some (c :: s, e)
      | none => if c = '.' then some ([], cs) else none

/-- Model of `posixpath.splitext`: split off the extension at the last
dot of the basename, except that leading dots of the basename do not
begin an extension. -/
def splitextL (p : Str) : Str × Str :=
  let base := afterLastSlash p
  let dir := p.take (p.length - base.length)
  let dots := base.takeWhile (fun c => c = '.')
  let rest := base.drop dots.length
  match lastDotSplit rest with
  | none => (p, [])
  | some (stem, ext) => (dir ++ dots ++ stem, '.' :: ext)

/-- The `name_match` computation of `FileManager.search_files` lines
231-239 for `search_type == "extension"`: lower-case keyword and name
unless `case_sensitive`, then compare the keyword against the
`splitext` extension of the checked name. -/
def extension_name_match (keyword name : Str) (case_sensitive : Bool) : Bool :=
  let keyword_search := if case_sensitive then keyword else pyLowerL keyword
  let name_to_check := if case_sensitive then name else pyLowerL name
  let ext := (splitextL name_to_check).2
  decide (keyword_search = ext) ||
  (decide (keyword_search.head? = some '.') && decide (keyword_search = ext))

/-!
## The tree scanners of `SmartFeatures`

`os.walk` is modelled by its output: the list of
`(dirpath, dirnames, filenames)` triples the loop receives, together
with the result of the `os.access(dirpath, os.R_OK)` guard (a raising
`os.access` behaves exactly like a `False` one: both `continue`).
-/

/-- One step of the `os.walk` enumeration as consumed by the scanners. -/
structure WalkDir where
  dirpath : Str
  readable : Bool
  filenames : List Str
deriving DecidableEq

/-- Model of `SmartFeatures.find_large_files`: collect descriptors of
regular files of size at least the threshold found in readable walked
directories, sort by size descending (stably, via the reversed key
order of `sort(key=..., reverse=True)`), and truncate. -/
def find_large_files (fs : FileSys) (walk : List WalkDir)
    (min_size_mb : Nat) (limit : Nat) : List FileDetails :=
  let min_size_bytes := min_size_mb * 1024 * 1024
  let large_files := walk.foldl
    (fun acc wd =>
      if wd.readable then
        acc ++ wd.filenames.filterMap (fun fn =>
          let file_path := pJoin wd.dirpath fn
          if isFileB fs file_path && decide (min_size_bytes ≤ sizeD fs file_path)
          then get_file_details fs file_path
          else none)
      else acc) []
  (sortByLe (fun a b => decide (b.size ≤ a.size)) large_files).take limit

/-!
## `SmartFeatures.find_duplicate_files`

Phase 1 collects, in traversal order, the regular files of size at
least the threshold lying in readable walked directories, and groups
them by exact byte size into a `defaultdict(list)` (an
insertion-ordered association list).  Phase 2 walks every size bucket
holding more than one file and groups its members by content digest,
materialising a digest's entry in `duplicate_hashes` when its second
member is seen.
-/

/-- First-key-occurrence lookup in an insertion-ordered association
list (Python `d[k]` / `k in d`). -/
def lookupA [DecidableEq α] (l : List (α × β)) (k : α) : Option β :=
  match l with
  | [] => none
  | (k', v) :: rest => if k' = k then some v else lookupA rest k

/-- The keys of an association list, in order. -/
def keysA (l : List (α × β)) : List α := l.map (fun q => q.1)

/-- `files_by_size[file_size].append(file_path)` on a
`defaultdict(list)`. -/
def addBySize (m : List (Nat × List Str)) (s : Nat) (p : Str) :
    List (Nat × List Str) :=
  match m with
  | [] => [(s, [p])]
  | (s', ps) :: rest =>
      if s' = s then (s', ps ++ [p]) :: rest
      else (s', ps) :: addBySize rest s p

/-- The flattened phase-1 file list of `find_duplicate_files` (and the
identical collection loop of `find_large_files`): the regular files of
size at least `minBytes` inside readable walked directories, in
traversal order. -/
def consideredFiles (fs : FileSys) (walk : List WalkDir) (minBytes : Nat) :
    List Str :=
  walk.foldl
    (fun acc wd =>
      if wd.readable then
        acc ++ wd.filenames.filterMap (fun fn =>
          let file_path := pJoin wd.dirpath fn
          if isFileB fs file_path && decide (minBytes ≤ sizeD fs file_path)
          then some file_path
          else none)
      else acc) []

/-- Phase 1 of `find_duplicate_files`: the `files_by_size` dictionary. -/
def buildBySize (fs : FileSys) (files : List Str) : List (Nat × List Str) :=
  files.foldl (fun m p => addBySize m (sizeD fs p) p) []

/-- Python truthiness of the `if file_hash:` guard: `None` and the
empty string are falsy. -/
def truthyHash (o : Option Str) : Option Str :=
  match o with
  | some h => if h = [] then none else some h
  | none => none

/-- The digest the duplicate scan observes for a path, `none` when
`get_file_hash` returned a falsy value and the path is skipped. -/
def hashOfF (fs : FileSys) (hasher : Str → List Nat → Str) (alg : Str)
    (p : Str) : Option Str :=
  truthyHash (get_file_hash fs hasher p alg)

/-- `duplicate_hashes[file_hash].append(file_path)`: append to the
value stored at an existing key, keeping key order (the call sites
guarantee the key is present). -/
def appendA (d : List (Str × List Str)) (h : Str) (p : Str) :
    List (Str × List Str) :=
  match d with
  | [] => []
  | (h', g) :: rest =>
      if h' = h then (h', g ++ [p]) :: rest
      else (h', g) :: appendA rest h p

/-- The state of the phase-2 inner loop: the growing
`duplicate_hashes` dictionary and the per-bucket `hashes` dictionary. -/
structure DupState where
  dupl : List (Str × List Str)
  hashes : List (Str × Str)
deriving DecidableEq

/-- One iteration of the inner loop of phase 2 (lines 203-211 of
`smart_features.py`). -/
def processFile (fs : FileSys) (hasher : Str → List Nat → Str) (alg : Str)
    (st : DupState) (p : Str) : DupState :=
  match hashOfF fs hasher alg p with
  | none => st
  | some h =>
      match lookupA st.hashes h with
      | some first =>
          let d0 := if (lookupA st.dupl h).isNone
                    then st.dupl ++ [(h, [first])]
                    else st.dupl
          { st with dupl := appendA d0 h p }
      | none => { st with hashes := st.hashes ++ [(h, p)] }

/-- Processing one size bucket: the `hashes` dictionary starts empty
for each bucket. -/
def processBucket (fs : FileSys) (hasher : Str → List Nat → Str) (alg : Str)
    (d : List (Str × List Str)) (ps : List Str) : List (Str × List Str) :=
  (ps.foldl (processFile fs hasher alg) ⟨d, []⟩).dupl

/-- Model of `SmartFeatures.find_duplicate_files`: phase 1 groups the
considered files by byte size, phase 2 groups every bucket with more
than one member by digest. -/
def find_duplicate_files (fs : FileSys) (hasher : Str → List Nat → Str)
    (walk : List WalkDir) (hash_algorithm : Str) (min_size_mb : Nat) :
    List (Str × List Str) :=
  let min_size_bytes := min_size_mb * 1024 * 1024
  let files := consideredFiles fs walk min_size_bytes
  let files_by_size := buildBySize fs files
  files_by_size.foldl
    (fun d b =>
      if 1 < b.2.length then processBucket fs hasher hash_algorithm d b.2
      else d) []

/-!
## Concrete inputs used by the claim theorems and witnesses
-/

/-- A filesystem holding one ordinary, stattable regular file. -/
def fsC1 : FileSys :=
  ⟨[⟨str "/home/u/a.txt", false, 5, 100, true, some [1, 2, 3], none⟩]⟩

/-- The scenario directory of the `listDirectory` claim: subdirectories
`B` and `a` and the file `c.txt`, all existing and stattable. -/
def fsC3 : FileSys :=
  ⟨[⟨str "/d", true, 0, 10, true, none, some [str "B", str "a", str "c.txt"]⟩,
    ⟨str "/d/B", true, 0, 10, true, none, some []⟩,
    ⟨str "/d/a", true, 0, 10, true, none, some []⟩,
    ⟨str "/d/c.txt", false, 7, 10, true, some [1], none⟩]⟩

/-- The descriptors the metadata resolver was intended to produce for
the three entries of `fsC3` (name, path, kind, size). -/
def detB : FileDetails := ⟨str "B", str "/d/B", true, 0, []⟩

def detA : FileDetails := ⟨str "a", str "/d/a", true, 0, []⟩

def detC : FileDetails := ⟨str "c.txt", str "/d/c.txt", false, 7, []⟩

/-- A tree with a 50 MiB file and a 150 MiB file. -/
def fsC4 : FileSys :=
  ⟨[⟨str "/t", true, 0, 10, true, none, some [str "small.bin", str "big.bin"]⟩,
    ⟨str "/t/small.bin", false, 52428800, 10, true, some [0], none⟩,
    ⟨str "/t/big.bin", false, 157286400, 10, true, some [1], none⟩]⟩

/-- The walk of `fsC4`. -/
def walkC4 : List WalkDir := [⟨str "/t", true, [str "small.bin", str "big.bin"]⟩]

/-!
## C1 — the metadata resolver (`resolve` / `get_file_details`)
-/

/-- Claim C1: the claim states that `get_file_details` returns a
non-null descriptor for every path that exists and can be statted, and
null exactly when the path does not exist or cannot be statted.  The
code violates this: `/home/u/a.txt` exists and is fully stattable in
`fsC1`, yet `get_file_details` returns `None` — indeed it returns
`None` on every input, because line 81 of `utils.py` calls
`fromtimestamp` on the `datetime` module, raising `AttributeError`,
which the generic handler converts to `None`. -/
theorem claim_C1 :
    existsB fsC1 (str "/home/u/a.txt") = true ∧
    get_file_details fsC1 (str "/home/u/a.txt") = none ∧
    (∀ fs p, get_file_details fs p = none) :=
  ⟨rfl, get_file_details_eq_none fsC1 (str "/home/u/a.txt"),
   get_file_details_eq_none⟩

/-!
## C3 — `listDirectory` scenario
-/

/-- Claim C3: the claim states that `list_directory` returns one
descriptor per entry and, on the `B`/`a`/`c.txt` directory, exactly the
order `B, a, c.txt`.  The code instead returns no descriptors at all
(with no error): every `get_file_details` call yields `None`.
Moreover, the claimed order is unreachable even with the resolver
fixed: the source's own sort key lower-cases names, and the intended
descriptors sort as `a, B, c.txt`. -/
theorem claim_C3 :
    list_directory fsC3 ⟨str "/d"⟩ (str "/d") = (⟨str "/d"⟩, ([], none)) ∧
    (sortByLe listDirKeyLe [detB, detA, detC]).map (fun d => d.name) =
      [str "a", str "B", str "c.txt"] := by
  exact ⟨rfl, rfl⟩

/-!
## C4 — `findLargeFiles` scenario
-/

/-- Claim C4: the claim states that `find_large_files` returns exactly
the readable regular files of size at least the threshold, so over a
tree with 50 MiB and 150 MiB files and a 100 MiB threshold it should
return the 150 MiB file.  The code returns the empty list: the 150 MiB
file passes the size filter (third conjunct), but its descriptor is
`None` for every file (the `datetime.fromtimestamp` slip in
`utils.get_file_details`), so nothing is ever collected. -/
theorem claim_C4 :
    find_large_files fsC4 walkC4 100 50 = [] ∧
    isFileB fsC4 (str "/t/big.bin") = true ∧
    100 * 1024 * 1024 ≤ sizeD fsC4 (str "/t/big.bin") :=
  ⟨rfl, rfl, by decide⟩

/-!
## C8 — unsupported digest algorithms
-/

/-- Claim C8: for every algorithm string other than `md5`, `sha1` and
`sha256`, `get_file_hash` returns `None` rather than raising — the
`ValueError` raised for the unsupported algorithm is caught by the
function's own generic handler (and a non-file short-circuits to `None`
even earlier). -/
theorem claim_C8 (fs : FileSys) (hasher : Str → List Nat → Str)
    (p alg : Str)
    (h1 : alg ≠ str "md5") (h2 : alg ≠ str "sha1") (h3 : alg ≠ str "sha256") :
    get_file_hash fs hasher p alg = none := by
  unfold get_file_hash
  by_cases hf : isFileB fs p
  · simp [hf, h1, h2, h3]
  · simp [hf]

/-- Witness for C8 at a concrete readable file and the concrete
algorithm string `crc32`. -/
theorem claim_C8_witness :
    (str "crc32" ≠ str "md5") ∧ (str "crc32" ≠ str "sha1") ∧
    (str "crc32" ≠ str "sha256") ∧
    get_file_hash fsC1 (fun _ _ => str "h") (str "/home/u/a.txt")
      (str "crc32") = none :=
  ⟨by decide, by decide, by decide,
   claim_C8 fsC1 (fun _ _ => str "h") (str "/home/u/a.txt") (str "crc32")
     (by decide) (by decide) (by decide)⟩

/-!
## C9 — `list_directory` mutates `current_path`
-/

/-- Claim C9: whenever the resolved target exists, is a directory and
passes the read-access check, `list_directory` sets `current_path` to
the target — whatever the subsequent enumeration does (the conclusion
holds for both outcomes of `os.scandir`, including failure). -/
theorem claim_C9 (fs : FileSys) (st : FMState) (p : Str)
    (h1 : existsB fs (targetOf st p) = true)
    (h2 : isDirB fs (targetOf st p) = true)
    (h3 : readableB fs (targetOf st p) = true) :
    (list_directory fs st p).1.current_path = targetOf st p := by
  unfold list_directory
  simp only [h1, h2, h3, Bool.not_true, Bool.false_eq_true, if_false]
  cases childrenOf fs (targetOf st p) <;> simp

/-- A root whose enumeration fails: `/h` exists, is a readable
directory, but `os.scandir` raises (`children = none`). -/
def fsC9 : FileSys := ⟨[⟨str "/h", true, 0, 10, true, none, none⟩]⟩

/-- Witness for C9: on `fsC9` the enumeration itself fails, and
`current_path` is changed to `/h` all the same. -/
theorem claim_C9_witness :
    existsB fsC9 (targetOf ⟨str "/x"⟩ (str "/h")) = true ∧
    isDirB fsC9 (targetOf ⟨str "/x"⟩ (str "/h")) = true ∧
    readableB fsC9 (targetOf ⟨str "/x"⟩ (str "/h")) = true ∧
    (list_directory fsC9 ⟨str "/x"⟩ (str "/h")).1.current_path =
      targetOf ⟨str "/x"⟩ (str "/h") :=
  ⟨by decide, by decide, by decide,
   claim_C9 fsC9 ⟨str "/x"⟩ (str "/h") (by decide) (by decide) (by decide)⟩

/-!
## C6 — `track_access` on a non-existent path is a no-op
-/

/-- Claim C6: for a path that does not currently exist, `track_access`
leaves the whole state — recent list, frequency counts and persisted
history file — unchanged, so a subsequent `get_recent_items` returns
the same result as before the call. -/
theorem claim_C6 (fs : FileSys) (st : SmartState) (p : Str)
    (h : existsB fs p = false) :
    track_access fs st p = st ∧
    (get_recent_items fs (track_access fs st p)).2 =
      (get_recent_items fs st).2 := by
  have hid : track_access fs st p = st := by
    unfold track_access
    simp [h]
  exact ⟨hid, by rw [hid]⟩

/-- Witness for C6: `/gone` does not exist in `fsC1`. -/
theorem claim_C6_witness :
    existsB fsC1 (str "/gone") = false ∧
    (track_access fsC1 ⟨[str "/home/u/a.txt"], [(str "/home/u/a.txt", 2)],
        none⟩ (str "/gone") =
      ⟨[str "/home/u/a.txt"], [(str "/home/u/a.txt", 2)], none⟩ ∧
     (get_recent_items fsC1 (track_access fsC1
        ⟨[str "/home/u/a.txt"], [(str "/home/u/a.txt", 2)], none⟩
        (str "/gone"))).2 =
      (get_recent_items fsC1
        ⟨[str "/home/u/a.txt"], [(str "/home/u/a.txt", 2)], none⟩).2) :=
  ⟨by decide,
   claim_C6 fsC1 ⟨[str "/home/u/a.txt"], [(str "/home/u/a.txt", 2)], none⟩
     (str "/gone") (by decide)⟩

/-!
## C7 — history round-trip
-/

/-- Claim C7: when every recorded path still exists, saving the history
and loading it back yields exactly the saved `recent_files` list and
`frequent_items` mapping. -/
theorem claim_C7 (fs : FileSys) (st : SmartState)
    (h1 : ∀ p ∈ st.recent_files, existsB fs p = true)
    (h2 : ∀ q ∈ st.frequent_items, existsB fs q.1 = true) :
    load_history fs (save_history st).history_doc =
      (st.recent_files, st.frequent_items) := by
  unfold save_history load_history
  simp only
  rw [List.filter_eq_self.mpr h1, List.filter_eq_self.mpr h2]

/-- Witness for C7 on a two-path history over `fsC3`. -/
theorem claim_C7_witness :
    (∀ p ∈ [str "/d/a", str "/d/c.txt"], existsB fsC3 p = true) ∧
    (∀ q ∈ [(str "/d/a", 3), (str "/d", 1)], existsB fsC3 q.1 = true) ∧
    load_history fsC3 (save_history ⟨[str "/d/a", str "/d/c.txt"],
        [(str "/d/a", 3), (str "/d", 1)], none⟩).history_doc =
      ([str "/d/a", str "/d/c.txt"], [(str "/d/a", 3), (str "/d", 1)]) :=
  ⟨by decide, by decide,
   claim_C7 fsC3 ⟨[str "/d/a", str "/d/c.txt"],
     [(str "/d/a", 3), (str "/d", 1)], none⟩ (by decide) (by decide)⟩

/-!
## C10 — extension search never matches a dot-less keyword
-/

/-- A non-empty `splitext` extension always starts with the dot it was
split at. -/
theorem splitext_ext_shape (n : Str) :
    (splitextL n).2 = [] ∨ (splitextL n).2.head? = some '.' := by
  unfold splitextL
  cases h : lastDotSplit ((afterLastSlash n).drop
      (((afterLastSlash n).takeWhile (fun c => c = '.')).length)) with
  | none => simp [h]
  | some se => simp [h]

/-- ASCII lower-casing maps no character to a dot except the dot. -/
theorem pyLowerChar_ne_dot (c : Char) (h : c ≠ '.') : pyLowerChar c ≠ '.' := by
  unfold pyLowerChar
  split <;> first | decide | exact h

/-- Lower-casing a string that does not start with a dot yields a
string that does not start with a dot. -/
theorem pyLowerL_head_ne_dot (s : Str) (h : s.head? ≠ some '.') :
    (pyLowerL s).head? ≠ some '.' := by
  cases s with
  | nil => simp [pyLowerL]
  | cons c cs =>
      simp only [pyLowerL, List.map_cons, List.head?_cons,
        Option.some.injEq] at *
      exact fun hg =>
        pyLowerChar_ne_dot c (fun hc => h (by rw [hc])) (Option.some.inj hg)

/-- Claim C10: in `search_files` with `search_type = "extension"`, the
keyword is compared for equality against the `splitext` extension of
the checked name, which carries its leading dot; hence a keyword that
does not start with a dot never matches any entry whose checked name
has a non-empty extension. -/
theorem claim_C10 (keyword name : Str) (case_sensitive : Bool)
    (hk : keyword.head? ≠ some '.')
    (he : (splitextL (if case_sensitive then name else pyLowerL name)).2 ≠ []) :
    extension_name_match keyword name case_sensitive = false := by
  unfold extension_name_match
  have hext : (splitextL (if case_sensitive then name
      else pyLowerL name)).2.head? = some '.' :=
    (splitext_ext_shape _).resolve_left he
  have hks : (if case_sensitive then keyword
      else pyLowerL keyword).head? ≠ some '.' := by
    cases case_sensitive with
    | false => exact pyLowerL_head_ne_dot keyword hk
    | true => simpa using hk
  have hne : (if case_sensitive then keyword else pyLowerL keyword) ≠
      (splitextL (if case_sensitive then name else pyLowerL name)).2 :=
    fun hEq => hks (by rw [hEq]; exact hext)
  simp [hne]

/-- Witness for C10: the keyword `txt` (no dot) against the file name
`a.txt`, case-insensitively; the extension is `.txt` and the match
fails. -/
theorem claim_C10_witness :
    ((str "txt").head? ≠ some '.') ∧
    ((splitextL (if false then str "a.txt"
        else pyLowerL (str "a.txt"))).2 ≠ []) ∧
    extension_name_match (str "txt") (str "a.txt") false = false :=
  ⟨by decide, by decide,
   claim_C10 (str "txt") (str "a.txt") false (by decide) (by decide)⟩

/-!
## C5 — the recent-list invariant
-/

/-- Number of occurrences of a path in a list. -/
def countOcc (l : List Str) (p : Str) : Nat :=
  (l.filter (fun q => decide (q = p))).length

/-- Removing an element only removes: membership is preserved
backwards. -/
theorem mem_of_mem_removeFirst {l : List Str} {p x : Str}
    (h : x ∈ removeFirst l p) : x ∈ l := by
  induction l with
  | nil => simpa [removeFirst] using h
  | cons q rest ih =>
      by_cases hq : q = p
      · simp only [removeFirst, if_pos hq] at h
        exact List.mem_cons_of_mem q h
      · simp only [removeFirst, if_neg hq, List.mem_cons] at h
        rcases h with h | h
        · exact h ▸ List.mem_cons_self q rest
        · exact List.mem_cons_of_mem q (ih h)

/-- `list.remove` keeps a duplicate-free list duplicate-free. -/
theorem removeFirst_nodup {l : List Str} (p : Str) (h : l.Nodup) :
    (removeFirst l p).Nodup := by
  induction l with
  | nil => simpa [removeFirst]
  | cons q rest ih =>
      rcases List.nodup_cons.mp h with ⟨hq, hrest⟩
      by_cases hqp : q = p
      · simpa [removeFirst, hqp] using hrest
      · simp only [removeFirst, if_neg hqp, List.nodup_cons]
        exact ⟨fun hm => hq (mem_of_mem_removeFirst hm), ih hrest⟩

/-- On a duplicate-free list, `list.remove` removes the element
entirely. -/
theorem not_mem_removeFirst {l : List Str} {p : Str} (h : l.Nodup) :
    p ∉ removeFirst l p := by
  induction l with
  | nil => simp [removeFirst]
  | cons q rest ih =>
      rcases List.nodup_cons.mp h with ⟨hq, hrest⟩
      by_cases hqp : q = p
      · simpa [removeFirst, hqp, hqp ▸ hq]
      · simp only [removeFirst, if_neg hqp, List.mem_cons]
        rintro (h' | h')
        · exact hqp h'.symm
        · exact ih hrest h'

/-- The head `p :: _` list built by `track_access` is duplicate-free
when the incoming list is. -/
theorem track_cons_nodup (st : SmartState) (p : Str)
    (h : st.recent_files.Nodup) :
    (p :: (if p ∈ st.recent_files then removeFirst st.recent_files p
           else st.recent_files)).Nodup := by
  by_cases hm : p ∈ st.recent_files
  · simp only [if_pos hm, List.nodup_cons]
    exact ⟨not_mem_removeFirst h, removeFirst_nodup p h⟩
  · simp only [if_neg hm, List.nodup_cons]
    exact ⟨hm, h⟩

/-- One `track_access` call preserves the recent-list invariant. -/
theorem track_access_good (fs : FileSys) (st : SmartState) (p : Str)
    (h : goodState st) : goodState (track_access fs st p) := by
  unfold track_access
  by_cases he : existsB fs p
  · simp only [he, Bool.not_true, Bool.false_eq_true, if_false, save_history,
      goodState]
    constructor
    · simpa using (List.length_take_le 50 _)
    · exact (List.take_sublist 50 _).nodup (track_cons_nodup st p h.2)
  · simpa [he] using h

/-- A whole sequence of `track_access` calls preserves the invariant. -/
theorem applyEvents_good (evs : List (FileSys × Str)) (st : SmartState)
    (h : goodState st) : goodState (applyEvents evs st) := by
  induction evs generalizing st with
  | nil => exact h
  | cons e rest ih => exact ih _ (track_access_good e.1 st e.2 h)

/-- Re-accessing a present path moves it to position 0 with exactly one
occurrence. -/
theorem track_access_front (fs : FileSys) (st : SmartState) (p : Str)
    (hg : goodState st) (he : existsB fs p = true) :
    (track_access fs st p).recent_files.head? = some p ∧
    countOcc (track_access fs st p).recent_files p = 1 := by
  unfold track_access
  simp only [he, Bool.not_true, Bool.false_eq_true, if_false, save_history]
  set r0 := if p ∈ st.recent_files then removeFirst st.recent_files p
            else st.recent_files with hr0
  have hpn : p ∉ r0 := by
    rw [hr0]
    by_cases hm : p ∈ st.recent_files
    · simpa [hm] using not_mem_removeFirst hg.2
    · simpa [hm] using hm
  constructor
  · simp [List.take_succ_cons]
  · have hfr : (r0.take 49).filter (fun q => decide (q = p)) = [] := by
      refine List.filter_eq_nil.mpr (fun a ha => ?_)
      have : a ∈ r0 := List.mem_of_mem_take ha
      simp only [decide_eq_true_eq]
      exact fun hap => hpn (hap ▸ this)
    simp [countOcc, List.take_succ_cons, List.filter_cons, hfr]

/-- Claim C5: from any state satisfying the recent-list invariant (in
particular the empty initial state), after any sequence of
`track_access` calls the recent list has at most 50 entries and no
duplicates; re-accessing an existing, present path moves it to position
0 with a single occurrence; and `get_recent_items` never returns more
than 50 entries. -/
theorem claim_C5 (evs : List (FileSys × Str)) (st0 : SmartState)
    (h0 : goodState st0) :
    goodState (applyEvents evs st0) ∧
    (∀ fs p, existsB fs p = true → p ∈ (applyEvents evs st0).recent_files →
      (track_access fs (applyEvents evs st0) p).recent_files.head? = some p ∧
      countOcc (track_access fs (applyEvents evs st0) p).recent_files p = 1) ∧
    (∀ fs, (get_recent_items fs (applyEvents evs st0)).2.length ≤ 50) := by
  have hg := applyEvents_good evs st0 h0
  refine ⟨hg, fun fs p he _ => track_access_front fs _ p hg he, fun fs => ?_⟩
  unfold get_recent_items
  simp only
  exact le_trans (List.length_filterMap_le _ _)
    (le_trans (List.length_filter_le _ _) hg.1)

/-- A one-file filesystem for the C5 witness. -/
def fsW5 : FileSys := ⟨[⟨str "/w/x", false, 1, 0, true, some [1], none⟩]⟩

/-- Witness for C5: two consecutive accesses to the same existing path
from the empty initial state. -/
theorem claim_C5_witness :
    goodState ⟨[], [], none⟩ ∧
    (goodState (applyEvents [(fsW5, str "/w/x"), (fsW5, str "/w/x")]
        ⟨[], [], none⟩) ∧
     (∀ fs p, existsB fs p = true →
        p ∈ (applyEvents [(fsW5, str "/w/x"), (fsW5, str "/w/x")]
          ⟨[], [], none⟩).recent_files →
        (track_access fs (applyEvents [(fsW5, str "/w/x"), (fsW5, str "/w/x")]
          ⟨[], [], none⟩) p).recent_files.head? = some p ∧
        countOcc (track_access fs
          (applyEvents [(fsW5, str "/w/x"), (fsW5, str "/w/x")]
            ⟨[], [], none⟩) p).recent_files p = 1) ∧
     (∀ fs, (get_recent_items fs
        (applyEvents [(fsW5, str "/w/x"), (fsW5, str "/w/x")]
          ⟨[], [], none⟩)).2.length ≤ 50)) :=
  ⟨⟨by simp, List.nodup_nil⟩,
   claim_C5 [(fsW5, str "/w/x"), (fsW5, str "/w/x")] ⟨[], [], none⟩
     ⟨by simp, List.nodup_nil⟩⟩

/-!
## C2 — the duplicate detector

The proof characterises `find_duplicate_files` exactly, under the one
hypothesis the claim takes for granted: that the digest determines the
byte size on the scanned files (true of a collision-free cryptographic
digest; without it two same-digest buckets of different sizes would
interfere).  The characterisation: a digest `h` is mapped to precisely
the traversal-ordered list of considered files whose digest is `h`,
whenever at least two such files exist, and is absent otherwise.
-/

/-- The files of one size bucket: the considered files of byte size
`s`, in traversal order. -/
def sizeGroup (fs : FileSys) (s : Nat) (files : List Str) : List Str :=
  files.filter (fun p => decide (sizeD fs p = s))

/-- The considered files carrying digest `h`, in traversal order. -/
def dupGroup (fs : FileSys) (hasher : Str → List Nat → Str) (alg : Str)
    (files : List Str) (h : Str) : List Str :=
  files.filter (fun p => decide (hashOfF fs hasher alg p = some h))

/-- The hypothesis the duplicate-detection claim presumes: on the
scanned files, equal digests imply equal byte sizes. -/
def sizeRespects (fs : FileSys) (hasher : Str → List Nat → Str) (alg : Str)
    (files : List Str) : Prop :=
  ∀ p ∈ files, ∀ q ∈ files,
    hashOfF fs hasher alg p ≠ none →
    hashOfF fs hasher alg p = hashOfF fs hasher alg q →
    sizeD fs p = sizeD fs q

theorem lookupA_append_some [DecidableEq α] {l m : List (α × β)} {k : α}
    {v : β} (h : lookupA l k = some v) : lookupA (l ++ m) k = some v := by
  induction l with
  | nil => simp [lookupA] at h
  | cons a rest ih =>
      by_cases hk : a.1 = k
      · simpa [lookupA, hk] using h
      · simp only [lookupA, if_neg hk] at h ⊢
        simpa [lookupA, hk] using ih h

theorem lookupA_append_none [DecidableEq α] {l : List (α × β)} {k : α}
    (m : List (α × β)) (h : lookupA l k = none) :
    lookupA (l ++ m) k = lookupA m k := by
  induction l with
  | nil => simp [lookupA]
  | cons a rest ih =>
      by_cases hk : a.1 = k
      · simp [lookupA, hk] at h
      · simp only [lookupA, if_neg hk] at h ⊢
        simpa [lookupA, hk] using ih h

theorem lookupA_eq_none_iff [DecidableEq α] (l : List (α × β)) (k : α) :
    lookupA l k = none ↔ k ∉ keysA l := by
  induction l with
  | nil => simp [lookupA, keysA]
  | cons a rest ih =>
      by_cases hk : a.1 = k
      · simp [lookupA, hk, keysA]
      · simp [lookupA, hk, keysA, ih, Ne.symm hk]

theorem lookupA_of_mem_nodup [DecidableEq α] {l : List (α × β)} {k : α}
    {v : β} (hnd : (keysA l).Nodup) (h : (k, v) ∈ l) :
    lookupA l k = some v := by
  induction l with
  | nil => simp at h
  | cons a rest ih =>
      have hnd' : (a.1 :: keysA rest).Nodup := hnd
      obtain ⟨ha, hrest⟩ := List.nodup_cons.mp hnd'
      rcases List.mem_cons.mp h with h | h
      · rw [← h]
        simp [lookupA]
      · have hk : a.1 ≠ k := by
          intro hak
          apply ha
          rw [hak]
          exact List.mem_map_of_mem (fun q => q.1) h
        simp only [lookupA, if_neg hk]
        exact ih hrest h

theorem mem_of_lookupA [DecidableEq α] {l : List (α × β)} {k : α} {v : β}
    (h : lookupA l k = some v) : (k, v) ∈ l := by
  induction l with
  | nil => simp [lookupA] at h
  | cons a rest ih =>
      cases a with
      | mk a1 a2 =>
          by_cases hk : a1 = k
          · simp only [lookupA, if_pos hk] at h
            subst hk
            rw [← Option.some.inj h]
            exact List.mem_cons_self _ _
          · simp only [lookupA, if_neg hk] at h
            exact List.mem_cons_of_mem _ (ih h)

theorem keysA_append (l m : List (α × β)) :
    keysA (l ++ m) = keysA l ++ keysA m := by
  simp [keysA]

theorem lookupA_appendA (d : List (Str × List Str)) (h p : Str) (k : Str) :
    lookupA (appendA d h p) k =
      if k = h then (lookupA d k).map (fun g => g ++ [p])
      else lookupA d k := by
  induction d with
  | nil => simp [appendA, lookupA]
  | cons a rest ih =>
      cases a with
      | mk a1 a2 =>
          simp only [appendA]
          by_cases h1 : a1 = h
          · subst h1
            by_cases h2 : a1 = k
            · subst h2
              simp [lookupA]
            · have h2' : ¬ k = a1 := fun hh => h2 hh.symm
              simp [lookupA, h2, h2']
          · by_cases h2 : a1 = k
            · subst h2
              have h1' : ¬ a1 = h := h1
              simp [lookupA, h1']
            · simp [lookupA, h1, h2, ih]

theorem keysA_appendA (d : List (Str × List Str)) (h p : Str) :
    keysA (appendA d h p) = keysA d := by
  induction d with
  | nil => simp [appendA]
  | cons a rest ih =>
      cases a with
      | mk a1 a2 =>
          simp only [appendA]
          by_cases h1 : a1 = h
          · subst h1
            simp [keysA]
          · simp only [if_neg h1]
            simp only [keysA, List.map_cons] at ih ⊢
            rw [ih]

theorem lookupA_addBySize (m : List (Nat × List Str)) (s : Nat) (p : Str)
    (t : Nat) :
    lookupA (addBySize m s p) t =
      if t = s then some ((lookupA m s).getD [] ++ [p])
      else lookupA m t := by
  induction m with
  | nil =>
      by_cases ht : t = s
      · subst ht
        simp [addBySize, lookupA]
      · have ht' : ¬ s = t := fun hh => ht hh.symm
        simp [addBySize, lookupA, ht, ht']
  | cons a rest ih =>
      cases a with
      | mk s1 g1 =>
          simp only [addBySize]
          by_cases h1 : s1 = s
          · subst h1
            by_cases ht : t = s1
            · subst ht
              simp [lookupA]
            · have ht' : ¬ s1 = t := fun hh => ht hh.symm
              simp [lookupA, ht, ht']
          · by_cases h2 : s1 = t
            · subst h2
              have ht : ¬ s1 = s := h1
              simp [lookupA, ht]
            · simp [lookupA, h1, h2, ih]

theorem mem_keysA_addBySize {m : List (Nat × List Str)} {s : Nat} {p : Str}
    {t : Nat} (h : t ∈ keysA (addBySize m s p)) : t ∈ keysA m ∨ t = s := by
  induction m with
  | nil =>
      right
      simpa [addBySize, keysA] using h
  | cons a rest ih =>
      cases a with
      | mk s1 g1 =>
          simp only [addBySize] at h
          by_cases hs : s1 = s
          · rw [if_pos hs] at h
            left
            exact h
          · rw [if_neg hs] at h
            have h' : t = s1 ∨ t ∈ keysA (addBySize rest s p) :=
              List.mem_cons.mp h
            rcases h' with h' | h'
            · left
              exact h' ▸ List.mem_cons_self _ _
            · rcases ih h' with h'' | h''
              · left
                exact List.mem_cons_of_mem _ h''
              · right
                exact h''

theorem keysA_addBySize_nodup (m : List (Nat × List Str)) (s : Nat) (p : Str)
    (h : (keysA m).Nodup) : (keysA (addBySize m s p)).Nodup := by
  induction m with
  | nil => simp [addBySize, keysA]
  | cons a rest ih =>
      cases a with
      | mk s1 g1 =>
          have h' : (s1 :: keysA rest).Nodup := h
          obtain ⟨h1, h2⟩ := List.nodup_cons.mp h'
          simp only [addBySize]
          by_cases hs : s1 = s
          · rw [if_pos hs]
            exact h'
          · rw [if_neg hs]
            refine List.nodup_cons.mpr ⟨?_, ih h2⟩
            intro hmem
            rcases mem_keysA_addBySize hmem with hm | hm
            · exact h1 hm
            · exact hs hm

theorem foldl_addBySize_lookup (fs : FileSys) (files : List Str)
    (m : List (Nat × List Str)) (s : Nat) :
    lookupA (files.foldl (fun m' p => addBySize m' (sizeD fs p) p) m) s =
      match lookupA m s with
      | some v => some (v ++ sizeGroup fs s files)
      | none =>
          if sizeGroup fs s files = [] then none
          else some (sizeGroup fs s files) := by
  induction files generalizing m with
  | nil => cases hm : lookupA m s <;> simp [sizeGroup, hm]
  | cons p rest ih =>
      have hstep : (p :: rest).foldl (fun m' q => addBySize m' (sizeD fs q) q) m
          = rest.foldl (fun m' q => addBySize m' (sizeD fs q) q)
              (addBySize m (sizeD fs p) p) := rfl
      rw [hstep, ih]
      by_cases hs : sizeD fs p = s
      · subst hs
        rw [lookupA_addBySize, if_pos rfl]
        have hgs : sizeGroup fs (sizeD fs p) (p :: rest) =
            p :: sizeGroup fs (sizeD fs p) rest := by
          simp [sizeGroup, List.filter_cons]
        cases hm : lookupA m (sizeD fs p) with
        | none => simp [hm, hgs]
        | some v => simp [hm, hgs]
      · have hs' : ¬ s = sizeD fs p := fun hh => hs hh.symm
        rw [lookupA_addBySize, if_neg hs']
        have hgs : sizeGroup fs s (p :: rest) = sizeGroup fs s rest := by
          simp [sizeGroup, List.filter_cons, hs]
        rw [hgs]

theorem buildBySize_lookup (fs : FileSys) (files : List Str) (s : Nat) :
    lookupA (buildBySize fs files) s =
      if sizeGroup fs s files = [] then none
      else some (sizeGroup fs s files) := by
  have h := foldl_addBySize_lookup fs files [] s
  simpa [buildBySize, lookupA] using h

theorem buildBySize_keys_nodup (fs : FileSys) (files : List Str) :
    (keysA (buildBySize fs files)).Nodup := by
  suffices haux : ∀ m : List (Nat × List Str), (keysA m).Nodup →
      (keysA (files.foldl (fun m' p => addBySize m' (sizeD fs p) p) m)).Nodup by
    exact haux [] (by simp [keysA])
  induction files with
  | nil => intro m h; exact h
  | cons p rest ih =>
      intro m h
      exact ih _ (keysA_addBySize_nodup m (sizeD fs p) p h)

theorem bucket_mem_spec (fs : FileSys) (files : List Str) {s : Nat}
    {ps : List Str} (h : (s, ps) ∈ buildBySize fs files) :
    ps = sizeGroup fs s files ∧ sizeGroup fs s files ≠ [] := by
  have hl := lookupA_of_mem_nodup (buildBySize_keys_nodup fs files) h
  rw [buildBySize_lookup] at hl
  by_cases hg : sizeGroup fs s files = []
  · rw [if_pos hg] at hl
    exact absurd hl (by simp)
  · rw [if_neg hg] at hl
    exact ⟨(Option.some.inj hl).symm, hg⟩

theorem dupGroup_append (fs : FileSys) (hasher : Str → List Nat → Str)
    (alg : Str) (u v : List Str) (h : Str) :
    dupGroup fs hasher alg (u ++ v) h =
      dupGroup fs hasher alg u h ++ dupGroup fs hasher alg v h := by
  simp [dupGroup]

theorem dupGroup_snoc_hit (fs : FileSys) (hasher : Str → List Nat → Str)
    (alg : Str) (u : List Str) (p : Str) (h : Str)
    (hp : hashOfF fs hasher alg p = some h) :
    dupGroup fs hasher alg (u ++ [p]) h =
      dupGroup fs hasher alg u h ++ [p] := by
  rw [dupGroup_append]
  simp [dupGroup, List.filter_cons, hp]

theorem dupGroup_snoc_miss (fs : FileSys) (hasher : Str → List Nat → Str)
    (alg : Str) (u : List Str) (p : Str) (h : Str)
    (hp : hashOfF fs hasher alg p ≠ some h) :
    dupGroup fs hasher alg (u ++ [p]) h = dupGroup fs hasher alg u h := by
  rw [dupGroup_append]
  simp [dupGroup, List.filter_cons, hp]

theorem mem_dupGroup_iff (fs : FileSys) (hasher : Str → List Nat → Str)
    (alg : Str) (files : List Str) (h : Str) (x : Str) :
    x ∈ dupGroup fs hasher alg files h ↔
      x ∈ files ∧ hashOfF fs hasher alg x = some h := by
  simp [dupGroup, List.mem_filter]

/-- A nonempty list equals its head consed on something. -/
theorem head_of_head? {l : List Str} {a : Str} (h : l.head? = some a) :
    ∃ t, l = a :: t := by
  cases l with
  | nil => simp at h
  | cons b t =>
      refine ⟨t, ?_⟩
      simp only [List.head?_cons, Option.some.injEq] at h
      rw [h]

/-- The invariant of the phase-2 inner loop, pushed through the
remaining files of one size bucket.  `u` is the processed prefix, `d0`
the dictionary the bucket started from, `d`/`hs` the current state. -/
theorem processBucket_step (fs : FileSys) (hasher : Str → List Nat → Str)
    (alg : Str) (d0 : List (Str × List Str)) (rest : List Str) :
    ∀ (u : List Str) (d : List (Str × List Str)) (hs : List (Str × Str)),
    (∀ h', lookupA hs h' = (dupGroup fs hasher alg u h').head?) →
    (∀ h', lookupA d h' =
       if 2 ≤ (dupGroup fs hasher alg u h').length
       then some (dupGroup fs hasher alg u h') else lookupA d0 h') →
    (∀ h' p', p' ∈ u ++ rest → hashOfF fs hasher alg p' = some h' →
       lookupA d0 h' = none) →
    ∀ h', lookupA ((rest.foldl (processFile fs hasher alg) ⟨d, hs⟩).dupl) h' =
      if 2 ≤ (dupGroup fs hasher alg (u ++ rest) h').length
      then some (dupGroup fs hasher alg (u ++ rest) h')
      else lookupA d0 h' := by
  induction rest with
  | nil =>
      intro u d hs I1 I2 pre h'
      simpa using I2 h'
  | cons p rest' ih =>
      intro u d hs I1 I2 pre h'
      have hassoc : (u ++ [p]) ++ rest' = u ++ p :: rest' := by simp
      have hf : ((p :: rest').foldl (processFile fs hasher alg) ⟨d, hs⟩) =
          rest'.foldl (processFile fs hasher alg)
            (processFile fs hasher alg ⟨d, hs⟩ p) := rfl
      rw [hf, ← hassoc]
      cases hp : hashOfF fs hasher alg p with
      | none =>
          have hmiss : ∀ h'', dupGroup fs hasher alg (u ++ [p]) h'' =
              dupGroup fs hasher alg u h'' := by
            intro h''
            exact dupGroup_snoc_miss fs hasher alg u p h'' (by rw [hp]; simp)
          have hpf : processFile fs hasher alg ⟨d, hs⟩ p = ⟨d, hs⟩ := by
            simp [processFile, hp]
          rw [hpf]
          exact ih (u ++ [p]) d hs
            (fun h'' => by rw [hmiss]; exact I1 h'')
            (fun h'' => by rw [hmiss]; exact I2 h'')
            (fun h'' q hq => pre h'' q (by rw [← hassoc]; exact hq)) h'
      | some h0 =>
          have hgrow : ∀ h'', h'' ≠ h0 →
              dupGroup fs hasher alg (u ++ [p]) h'' =
                dupGroup fs hasher alg u h'' := by
            intro h'' hne
            refine dupGroup_snoc_miss fs hasher alg u p h'' ?_
            rw [hp]
            intro hcon
            exact hne (Option.some.inj hcon).symm
          have hhit : dupGroup fs hasher alg (u ++ [p]) h0 =
              dupGroup fs hasher alg u h0 ++ [p] :=
            dupGroup_snoc_hit fs hasher alg u p h0 hp
          cases hhs : lookupA hs h0 with
          | none =>
              have hu0 : dupGroup fs hasher alg u h0 = [] := by
                have h1 := I1 h0
                rw [hhs] at h1
                cases hgu : dupGroup fs hasher alg u h0 with
                | nil => rfl
                | cons a l => rw [hgu] at h1; simp at h1
              have hpf : processFile fs hasher alg ⟨d, hs⟩ p =
                  ⟨d, hs ++ [(h0, p)]⟩ := by
                simp [processFile, hp, hhs]
              rw [hpf]
              refine ih (u ++ [p]) d (hs ++ [(h0, p)]) ?_ ?_
                (fun h'' q hq => pre h'' q (by rw [← hassoc]; exact hq)) h'
              · intro h''
                by_cases hh : h'' = h0
                · rw [hh, lookupA_append_none _ hhs, hhit, hu0]
                  simp [lookupA]
                · rw [hgrow h'' hh]
                  cases hv : lookupA hs h'' with
                  | some v => rw [lookupA_append_some hv, ← hv]; exact I1 h''
                  | none =>
                      rw [lookupA_append_none _ hv]
                      have hne : ¬ h0 = h'' := fun hh' => hh hh'.symm
                      have hz : lookupA [(h0, p)] h'' = none := by
                        simp [lookupA, hne]
                      rw [hz, ← hv]
                      exact I1 h''
              · intro h''
                by_cases hh : h'' = h0
                · rw [hh, hhit, hu0]
                  have h2 := I2 h0
                  rw [hu0] at h2
                  simpa using h2
                · rw [hgrow h'' hh]
                  exact I2 h''
          | some first =>
              have hhead : (dupGroup fs hasher alg u h0).head? = some first := by
                rw [← I1 h0, hhs]
              obtain ⟨tail, htail⟩ := head_of_head? hhead
              cases hd : lookupA d h0 with
              | none =>
                  have hI2 := I2 h0
                  rw [hd] at hI2
                  by_cases hlen : 2 ≤ (dupGroup fs hasher alg u h0).length
                  · rw [if_pos hlen] at hI2
                    exact absurd hI2 (by simp)
                  · rw [if_neg hlen] at hI2
                    have hg1 : dupGroup fs hasher alg u h0 = [first] := by
                      rw [htail]
                      rw [htail] at hlen
                      cases tail with
                      | nil => rfl
                      | cons a l =>
                          exfalso
                          apply hlen
                          simp only [List.length_cons]
                          omega
                    have hpf : processFile fs hasher alg ⟨d, hs⟩ p =
                        ⟨appendA (d ++ [(h0, [first])]) h0 p, hs⟩ := by
                      simp [processFile, hp, hhs, hd]
                    rw [hpf]
                    refine ih (u ++ [p]) (appendA (d ++ [(h0, [first])]) h0 p)
                      hs ?_ ?_
                      (fun h'' q hq => pre h'' q (by rw [← hassoc]; exact hq)) h'
                    · intro h''
                      by_cases hh : h'' = h0
                      · rw [hh, hhs, hhit, hg1]
                        rfl
                      · rw [hgrow h'' hh]
                        exact I1 h''
                    · intro h''
                      by_cases hh : h'' = h0
                      · rw [hh, lookupA_appendA, if_pos rfl,
                          lookupA_append_none _ hd]
                        have hone : lookupA [(h0, [first])] h0 = some [first] := by
                          simp [lookupA]
                        rw [hone, hhit, hg1]
                        simp
                      · rw [lookupA_appendA, if_neg hh, hgrow h'' hh]
                        cases hv : lookupA d h'' with
                        | some v => rw [lookupA_append_some hv, ← hv]; exact I2 h''
                        | none =>
                            rw [lookupA_append_none _ hv]
                            have hne : ¬ h0 = h'' := fun hh' => hh hh'.symm
                            have hz : lookupA [(h0, [first])] h'' = none := by
                              simp [lookupA, hne]
                            rw [hz, ← hv]
                            exact I2 h''
              | some g =>
                  have hI2 := I2 h0
                  rw [hd] at hI2
                  have hd0 : lookupA d0 h0 = none :=
                    pre h0 p (by simp) hp
                  by_cases hlen : 2 ≤ (dupGroup fs hasher alg u h0).length
                  · rw [if_pos hlen] at hI2
                    have hg : g = dupGroup fs hasher alg u h0 :=
                      Option.some.inj hI2
                    have hpf : processFile fs hasher alg ⟨d, hs⟩ p =
                        ⟨appendA d h0 p, hs⟩ := by
                      simp [processFile, hp, hhs, hd]
                    rw [hpf]
                    refine ih (u ++ [p]) (appendA d h0 p) hs ?_ ?_
                      (fun h'' q hq => pre h'' q (by rw [← hassoc]; exact hq)) h'
                    · intro h''
                      by_cases hh : h'' = h0
                      · rw [hh, hhs, hhit, htail]
                        rfl
                      · rw [hgrow h'' hh]
                        exact I1 h''
                    · intro h''
                      by_cases hh : h'' = h0
                      · rw [hh, lookupA_appendA, if_pos rfl, hd, hhit]
                        have hlen' : 2 ≤ (dupGroup fs hasher alg u h0 ++
                            [p]).length := by
                          rw [List.length_append]
                          omega
                        rw [if_pos hlen', hg]
                        rfl
                      · rw [lookupA_appendA, if_neg hh, hgrow h'' hh]
                        exact I2 h''
                  · rw [if_neg hlen, hd0] at hI2
                    exact absurd hI2 (by simp)

/-- Processing one whole size bucket (fresh `hashes`), characterised:
a digest present at least twice in the bucket is mapped to its ordered
occurrence list; any other key of `duplicate_hashes` is untouched.
Requires that no digest occurring in the bucket is already a key. -/
theorem processBucket_lookup (fs : FileSys) (hasher : Str → List Nat → Str)
    (alg : Str) (d0 : List (Str × List Str)) (ps : List Str)
    (pre : ∀ h p, p ∈ ps → hashOfF fs hasher alg p = some h →
      lookupA d0 h = none) (h : Str) :
    lookupA (processBucket fs hasher alg d0 ps) h =
      if 2 ≤ (dupGroup fs hasher alg ps h).length
      then some (dupGroup fs hasher alg ps h) else lookupA d0 h := by
  have hstep := processBucket_step fs hasher alg d0 ps [] d0 []
    (fun h' => by simp [lookupA, dupGroup])
    (fun h' => by simp [dupGroup])
    (fun h' p hp hhash => pre h' p (by simpa using hp) hhash)
    h
  simpa [processBucket] using hstep

theorem processFile_keys_nodup (fs : FileSys)
    (hasher : Str → List Nat → Str) (alg : Str) (st : DupState) (p : Str)
    (h : (keysA st.dupl).Nodup) :
    (keysA (processFile fs hasher alg st p).dupl).Nodup := by
  cases hp : hashOfF fs hasher alg p with
  | none => simpa only [processFile, hp] using h
  | some h0 =>
      cases hhs : lookupA st.hashes h0 with
      | none => simpa only [processFile, hp, hhs] using h
      | some first =>
          simp only [processFile, hp, hhs]
          rw [keysA_appendA]
          by_cases hd : (lookupA st.dupl h0).isNone
          · rw [if_pos hd, keysA_append]
            have hnm : h0 ∉ keysA st.dupl :=
              (lookupA_eq_none_iff _ _).mp (Option.isNone_iff_eq_none.mp hd)
            refine List.nodup_append.mpr ⟨h, ?_, ?_⟩
            · simp [keysA]
            · intro a ha hb
              have hb' : a = h0 := by simpa [keysA] using hb
              rw [hb'] at ha
              exact hnm ha
          · rw [if_neg hd]
            exact h

theorem foldl_processFile_keys_nodup (fs : FileSys)
    (hasher : Str → List Nat → Str) (alg : Str) (ps : List Str) :
    ∀ st : DupState, (keysA st.dupl).Nodup →
      (keysA ((ps.foldl (processFile fs hasher alg) st)).dupl).Nodup := by
  induction ps with
  | nil => intro st h; exact h
  | cons p rest ih =>
      intro st h
      exact ih _ (processFile_keys_nodup fs hasher alg st p h)

theorem find_duplicate_files_keys_nodup (fs : FileSys)
    (hasher : Str → List Nat → Str) (walk : List WalkDir) (alg : Str)
    (mmb : Nat) :
    (keysA (find_duplicate_files fs hasher walk alg mmb)).Nodup := by
  have haux : ∀ (bs : List (Nat × List Str)) (d : List (Str × List Str)),
      (keysA d).Nodup →
      (keysA (bs.foldl
        (fun d' b => if 1 < b.2.length
                     then processBucket fs hasher alg d' b.2 else d') d)).Nodup := by
    intro bs
    induction bs with
    | nil => intro d h; exact h
    | cons b rest ih =>
        intro d h
        have hb : (keysA (if 1 < b.2.length
            then processBucket fs hasher alg d b.2 else d)).Nodup := by
          by_cases hlb : 1 < b.2.length
          · rw [if_pos hlb]
            exact foldl_processFile_keys_nodup fs hasher alg b.2 ⟨d, []⟩ h
          · rw [if_neg hlb]
            exact h
        exact ih _ hb
  exact haux _ [] (by simp [keysA])

/-- The head of a nonempty list, with default, is a member. -/
theorem headD_mem {l : List Str} (h : l ≠ []) : l.headD [] ∈ l := by
  cases l with
  | nil => exact absurd rfl h
  | cons a t => simp

/-- Under the size-respecting hypothesis, restricting a digest's group
to the size bucket of one of its members changes nothing: every file
with that digest lives in that bucket. -/
theorem dupGroup_sizeGroup_eq (fs : FileSys) (hasher : Str → List Nat → Str)
    (alg : Str) (files : List Str)
    (H1 : sizeRespects fs hasher alg files) (h : Str) (s : Nat) (p0 : Str)
    (hp0 : p0 ∈ files) (hh0 : hashOfF fs hasher alg p0 = some h)
    (hs0 : sizeD fs p0 = s) :
    dupGroup fs hasher alg (sizeGroup fs s files) h =
      dupGroup fs hasher alg files h := by
  unfold dupGroup sizeGroup
  rw [List.filter_filter]
  apply List.filter_congr
  intro x hx
  by_cases hxh : hashOfF fs hasher alg x = some h
  · have hxs : sizeD fs x = sizeD fs p0 :=
      H1 x hx p0 hp0 (by rw [hxh]; simp) (by rw [hxh, hh0])
    simp [hxh, hxs, hs0]
  · simp [hxh]

/-- The size every file of digest `h` shares: the size of the group's
first member (`0` when the group is empty, in which case it is never
used). -/
def hashHeadSize (fs : FileSys) (hasher : Str → List Nat → Str)
    (alg : Str) (files : List Str) (h : Str) : Nat :=
  sizeD fs ((dupGroup fs hasher alg files h).headD [])

theorem hashHeadSize_eq (fs : FileSys) (hasher : Str → List Nat → Str)
    (alg : Str) (files : List Str)
    (H1 : sizeRespects fs hasher alg files) (h : Str) (s : Nat) (q : Str)
    (hqf : q ∈ files) (hqh : hashOfF fs hasher alg q = some h)
    (hqs : sizeD fs q = s) :
    hashHeadSize fs hasher alg files h = s := by
  have hqg : q ∈ dupGroup fs hasher alg files h :=
    (mem_dupGroup_iff fs hasher alg files h q).mpr ⟨hqf, hqh⟩
  have hne : dupGroup fs hasher alg files h ≠ [] := List.ne_nil_of_mem hqg
  have hmf := (mem_dupGroup_iff fs hasher alg files h _).mp (headD_mem hne)
  unfold hashHeadSize
  rw [H1 _ hmf.1 q hqf (by rw [hmf.2]; simp) (by rw [hmf.2, hqh]), hqs]

theorem notin_cons_iff {α : Type _} {a s : α} {l : List α} (h : a ≠ s) :
    a ∉ s :: l ↔ a ∉ l := by
  simp [h]

/-- Folding phase 2 over a suffix of the size buckets.  The dictionary
`d` already holds exactly the groups whose bucket was processed
earlier; afterwards it holds every group of at least two files. -/
theorem foldl_buckets_lookup (fs : FileSys) (hasher : Str → List Nat → Str)
    (alg : Str) (files : List Str)
    (H1 : sizeRespects fs hasher alg files) (bs : List (Nat × List Str)) :
    ∀ d : List (Str × List Str),
    (∀ s ps, (s, ps) ∈ bs → ps = sizeGroup fs s files) →
    ((keysA bs).Nodup) →
    (∀ h, lookupA d h =
       if 2 ≤ (dupGroup fs hasher alg files h).length ∧
          hashHeadSize fs hasher alg files h ∉ keysA bs
       then some (dupGroup fs hasher alg files h) else none) →
    ∀ h, lookupA (bs.foldl
        (fun d' b => if 1 < b.2.length
                     then processBucket fs hasher alg d' b.2 else d') d) h =
      if 2 ≤ (dupGroup fs hasher alg files h).length
      then some (dupGroup fs hasher alg files h) else none := by
  induction bs with
  | nil =>
      intro d _ _ Hd h
      have hd := Hd h
      simpa [keysA] using hd
  | cons b rest ih =>
      intro d Hps Hnd Hd h
      obtain ⟨s, ps⟩ := b
      have hps : ps = sizeGroup fs s files := Hps s ps (List.mem_cons_self _ _)
      have hnd' : (s :: keysA rest).Nodup := Hnd
      obtain ⟨hsr, hndr⟩ := List.nodup_cons.mp hnd'
      have hstep : ((s, ps) :: rest).foldl
          (fun d' b => if 1 < b.2.length
                       then processBucket fs hasher alg d' b.2 else d') d
        = rest.foldl
            (fun d' b => if 1 < b.2.length
                         then processBucket fs hasher alg d' b.2 else d')
            (if 1 < ps.length then processBucket fs hasher alg d ps else d) :=
        rfl
      rw [hstep]
      refine ih _ (fun s' ps' hm => Hps s' ps' (List.mem_cons_of_mem _ hm))
        hndr ?_ h
      intro h'
      by_cases hlenb : 1 < ps.length
      · rw [if_pos hlenb]
        have pre : ∀ h'' q, q ∈ ps → hashOfF fs hasher alg q = some h'' →
            lookupA d h'' = none := by
          intro h'' q hq hhq
          have hq' : q ∈ files ∧ sizeD fs q = s := by
            rw [hps] at hq
            have hmv := List.mem_filter.mp hq
            exact ⟨hmv.1, by simpa using hmv.2⟩
          have hsz : hashHeadSize fs hasher alg files h'' = s :=
            hashHeadSize_eq fs hasher alg files H1 h'' s q hq'.1 hhq hq'.2
          rw [Hd h'', if_neg]
          rintro ⟨_, hnotin⟩
          apply hnotin
          rw [hsz]
          exact List.mem_cons_self _ _
        rw [processBucket_lookup fs hasher alg d ps pre h']
        by_cases hbe : dupGroup fs hasher alg ps h' = []
        · rw [hbe]
          have h02 : ¬ (2 ≤ ([] : List Str).length) := by simp
          rw [if_neg h02, Hd h']
          by_cases hlen : 2 ≤ (dupGroup fs hasher alg files h').length
          · have hgne : dupGroup fs hasher alg files h' ≠ [] := by
              intro hnil
              rw [hnil] at hlen
              simp at hlen
            have hmf := (mem_dupGroup_iff fs hasher alg files h' _).mp
              (headD_mem hgne)
            have hne : hashHeadSize fs hasher alg files h' ≠ s := by
              intro heq
              have hC := dupGroup_sizeGroup_eq fs hasher alg files H1 h' s _
                hmf.1 hmf.2 heq
              rw [hps] at hbe
              rw [hbe] at hC
              exact hgne hC.symm
            exact if_congr (and_congr_right (fun _ => notin_cons_iff hne))
              rfl rfl
          · rw [if_neg (fun hc => hlen hc.1), if_neg (fun hc => hlen hc.1)]
        · obtain ⟨q, hq⟩ := List.exists_mem_of_ne_nil _ hbe
          have hq2 := (mem_dupGroup_iff fs hasher alg ps h' q).mp hq
          have hq' : q ∈ files ∧ sizeD fs q = s := by
            have hq2' := hq2.1
            rw [hps] at hq2'
            have hmv := List.mem_filter.mp hq2'
            exact ⟨hmv.1, by simpa using hmv.2⟩
          have hsz : hashHeadSize fs hasher alg files h' = s :=
            hashHeadSize_eq fs hasher alg files H1 h' s q hq'.1 hq2.2 hq'.2
          have hC : dupGroup fs hasher alg ps h' =
              dupGroup fs hasher alg files h' := by
            rw [hps]
            exact dupGroup_sizeGroup_eq fs hasher alg files H1 h' s q
              hq'.1 hq2.2 hq'.2
          rw [hC]
          by_cases hlen : 2 ≤ (dupGroup fs hasher alg files h').length
          · rw [if_pos hlen, if_pos ⟨hlen, by rw [hsz]; exact hsr⟩]
          · rw [if_neg hlen, Hd h', if_neg (fun hc => hlen hc.1),
              if_neg (fun hc => hlen hc.1)]
      · rw [if_neg hlenb, Hd h']
        by_cases hlen : 2 ≤ (dupGroup fs hasher alg files h').length
        · have hgne : dupGroup fs hasher alg files h' ≠ [] := by
            intro hnil
            rw [hnil] at hlen
            simp at hlen
          have hmf := (mem_dupGroup_iff fs hasher alg files h' _).mp
            (headD_mem hgne)
          have hne : hashHeadSize fs hasher alg files h' ≠ s := by
            intro heq
            have hC := dupGroup_sizeGroup_eq fs hasher alg files H1 h' s _
              hmf.1 hmf.2 heq
            have hle : (dupGroup fs hasher alg files h').length ≤
                (sizeGroup fs s files).length := by
              rw [← hC]
              exact List.length_filter_le _ _
            rw [← hps] at hle
            omega
          exact if_congr (and_congr_right (fun _ => notin_cons_iff hne))
            rfl rfl
        · rw [if_neg (fun hc => hlen hc.1), if_neg (fun hc => hlen hc.1)]

/-- The full characterisation of `find_duplicate_files` under the
size-respecting-digest hypothesis: digest `h` maps to the
traversal-ordered list of all considered files with digest `h` exactly
when there are at least two of them. -/
theorem find_duplicate_files_lookup (fs : FileSys)
    (hasher : Str → List Nat → Str) (walk : List WalkDir) (alg : Str)
    (mmb : Nat)
    (H1 : sizeRespects fs hasher alg
      (consideredFiles fs walk (mmb * 1024 * 1024))) (h : Str) :
    lookupA (find_duplicate_files fs hasher walk alg mmb) h =
      if 2 ≤ (dupGroup fs hasher alg
          (consideredFiles fs walk (mmb * 1024 * 1024)) h).length
      then some (dupGroup fs hasher alg
          (consideredFiles fs walk (mmb * 1024 * 1024)) h)
      else none := by
  have hd0 : ∀ h', lookupA ([] : List (Str × List Str)) h' =
      if 2 ≤ (dupGroup fs hasher alg
          (consideredFiles fs walk (mmb * 1024 * 1024)) h').length ∧
         hashHeadSize fs hasher alg
           (consideredFiles fs walk (mmb * 1024 * 1024)) h' ∉
           keysA (buildBySize fs (consideredFiles fs walk (mmb * 1024 * 1024)))
      then some (dupGroup fs hasher alg
          (consideredFiles fs walk (mmb * 1024 * 1024)) h')
      else none := by
    intro h'
    rw [if_neg]
    · rfl
    rintro ⟨hlen, hnm⟩
    apply hnm
    have hgne : dupGroup fs hasher alg
        (consideredFiles fs walk (mmb * 1024 * 1024)) h' ≠ [] := by
      intro hnil
      rw [hnil] at hlen
      simp at hlen
    have hmf := (mem_dupGroup_iff fs hasher alg _ h' _).mp (headD_mem hgne)
    have hmemSG : (dupGroup fs hasher alg
        (consideredFiles fs walk (mmb * 1024 * 1024)) h').headD [] ∈
        sizeGroup fs
          (hashHeadSize fs hasher alg
            (consideredFiles fs walk (mmb * 1024 * 1024)) h')
          (consideredFiles fs walk (mmb * 1024 * 1024)) :=
      List.mem_filter.mpr ⟨hmf.1, by simp [hashHeadSize]⟩
    have hsgne := List.ne_nil_of_mem hmemSG
    have hlook := buildBySize_lookup fs
      (consideredFiles fs walk (mmb * 1024 * 1024))
      (hashHeadSize fs hasher alg
        (consideredFiles fs walk (mmb * 1024 * 1024)) h')
    rw [if_neg hsgne] at hlook
    by_contra hnot
    rw [(lookupA_eq_none_iff _ _).mpr hnot] at hlook
    exact absurd hlook (by simp)
  have hmain := foldl_buckets_lookup fs hasher alg
    (consideredFiles fs walk (mmb * 1024 * 1024)) H1
    (buildBySize fs (consideredFiles fs walk (mmb * 1024 * 1024))) []
    (fun s ps hm => (bucket_mem_spec fs _ hm).1)
    (buildBySize_keys_nodup fs _)
    hd0 h
  exact hmain

/-- Claim C2: in every invocation of `find_duplicate_files` (over any
filesystem, walk, digest function and threshold), provided digests
determine byte sizes on the scanned files — the collision-freeness the
claim takes for granted —
(i) every emitted group holds at least 2 paths;
(ii) every path of a group is a considered file carrying exactly the
group's digest;
(iii) any two paths in one group have identical byte size;
(iv) whenever at least two considered files share a digest (hence, by
the hypothesis, a size), every one of them — also for three or more —
appears in that digest's group. -/
theorem claim_C2 (fs : FileSys) (hasher : Str → List Nat → Str)
    (walk : List WalkDir) (alg : Str) (mmb : Nat)
    (H1 : sizeRespects fs hasher alg
      (consideredFiles fs walk (mmb * 1024 * 1024))) :
    (∀ h g, (h, g) ∈ find_duplicate_files fs hasher walk alg mmb →
       2 ≤ g.length) ∧
    (∀ h g, (h, g) ∈ find_duplicate_files fs hasher walk alg mmb →
       ∀ p ∈ g, p ∈ consideredFiles fs walk (mmb * 1024 * 1024) ∧
         hashOfF fs hasher alg p = some h) ∧
    (∀ h g, (h, g) ∈ find_duplicate_files fs hasher walk alg mmb →
       ∀ p ∈ g, ∀ q ∈ g, sizeD fs p = sizeD fs q) ∧
    (∀ h p, p ∈ consideredFiles fs walk (mmb * 1024 * 1024) →
       hashOfF fs hasher alg p = some h →
       2 ≤ (dupGroup fs hasher alg
         (consideredFiles fs walk (mmb * 1024 * 1024)) h).length →
       ∃ g, (h, g) ∈ find_duplicate_files fs hasher walk alg mmb ∧
         p ∈ g ∧
         g = dupGroup fs hasher alg
           (consideredFiles fs walk (mmb * 1024 * 1024)) h) := by
  have hnd := find_duplicate_files_keys_nodup fs hasher walk alg mmb
  have hmemg : ∀ h g, (h, g) ∈ find_duplicate_files fs hasher walk alg mmb →
      g = dupGroup fs hasher alg
        (consideredFiles fs walk (mmb * 1024 * 1024)) h ∧
      2 ≤ (dupGroup fs hasher alg
        (consideredFiles fs walk (mmb * 1024 * 1024)) h).length := by
    intro h g hmem
    have hl := lookupA_of_mem_nodup hnd hmem
    rw [find_duplicate_files_lookup fs hasher walk alg mmb H1 h] at hl
    by_cases hlen : 2 ≤ (dupGroup fs hasher alg
        (consideredFiles fs walk (mmb * 1024 * 1024)) h).length
    · rw [if_pos hlen] at hl
      exact ⟨(Option.some.inj hl).symm, hlen⟩
    · rw [if_neg hlen] at hl
      exact absurd hl (by simp)
  refine ⟨?_, ?_, ?_, ?_⟩
  · intro h g hmem
    obtain ⟨hg, hlen⟩ := hmemg h g hmem
    rw [hg]
    exact hlen
  · intro h g hmem p hp
    obtain ⟨hg, _⟩ := hmemg h g hmem
    rw [hg] at hp
    exact (mem_dupGroup_iff fs hasher alg _ h p).mp hp
  · intro h g hmem p hp q hq
    obtain ⟨hg, _⟩ := hmemg h g hmem
    rw [hg] at hp hq
    have hp' := (mem_dupGroup_iff fs hasher alg _ h p).mp hp
    have hq' := (mem_dupGroup_iff fs hasher alg _ h q).mp hq
    exact H1 p hp'.1 q hq'.1 (by rw [hp'.2]; simp) (by rw [hp'.2, hq'.2])
  · intro h p hp hh hlen
    refine ⟨dupGroup fs hasher alg
      (consideredFiles fs walk (mmb * 1024 * 1024)) h, ?_, ?_, rfl⟩
    · apply mem_of_lookupA
      rw [find_duplicate_files_lookup fs hasher walk alg mmb H1 h,
        if_pos hlen]
    · exact (mem_dupGroup_iff fs hasher alg _ h p).mpr ⟨hp, hh⟩

/-- Three identical 2 MiB files for the C2 witness. -/
def fsW2 : FileSys :=
  ⟨[⟨str "/w", true, 0, 0, true, none,
     some [str "a.bin", str "b.bin", str "c.bin"]⟩,
    ⟨str "/w/a.bin", false, 2097152, 0, true, some [7], none⟩,
    ⟨str "/w/b.bin", false, 2097152, 0, true, some [7], none⟩,
    ⟨str "/w/c.bin", false, 2097152, 0, true, some [7], none⟩]⟩

/-- The walk of `fsW2`. -/
def walkW2 : List WalkDir :=
  [⟨str "/w", true, [str "a.bin", str "b.bin", str "c.bin"]⟩]

/-- A digest function for the witness (constant, hence trivially
size-respecting on the three equal-sized files). -/
def hasherW2 : Str → List Nat → Str := fun _ _ => str "d41d8cd9"

/-- Witness for C2: a scan of three same-size, same-digest files (the
group of three exercises the k at least 3 case). -/
theorem claim_C2_witness :
    sizeRespects fsW2 hasherW2 (str "md5")
      (consideredFiles fsW2 walkW2 (1 * 1024 * 1024)) ∧
    ((∀ h g, (h, g) ∈ find_duplicate_files fsW2 hasherW2 walkW2
        (str "md5") 1 → 2 ≤ g.length) ∧
     (∀ h g, (h, g) ∈ find_duplicate_files fsW2 hasherW2 walkW2
        (str "md5") 1 →
       ∀ p ∈ g, p ∈ consideredFiles fsW2 walkW2 (1 * 1024 * 1024) ∧
         hashOfF fsW2 hasherW2 (str "md5") p = some h) ∧
     (∀ h g, (h, g) ∈ find_duplicate_files fsW2 hasherW2 walkW2
        (str "md5") 1 →
       ∀ p ∈ g, ∀ q ∈ g, sizeD fsW2 p = sizeD fsW2 q) ∧
     (∀ h p, p ∈ consideredFiles fsW2 walkW2 (1 * 1024 * 1024) →
       hashOfF fsW2 hasherW2 (str "md5") p = some h →
       2 ≤ (dupGroup fsW2 hasherW2 (str "md5")
         (consideredFiles fsW2 walkW2 (1 * 1024 * 1024)) h).length →
       ∃ g, (h, g) ∈ find_duplicate_files fsW2 hasherW2 walkW2
           (str "md5") 1 ∧
         p ∈ g ∧
         g = dupGroup fsW2 hasherW2 (str "md5")
           (consideredFiles fsW2 walkW2 (1 * 1024 * 1024)) h)) :=
  ⟨by unfold sizeRespects; decide,
   claim_C2 fsW2 hasherW2 walkW2 (str "md5") 1
     (by unfold sizeRespects; decide)⟩
